import Mathlib

/-!
# Verification of the error-analysis / cross-validation pipeline of `helper.py`

This file gives a shallow embedding of the error-analysis core of the
repository (the functions `error_cross_validate`, `top_n_errors`,
`comps2sent`, `sent_type_errors` and `error_analysis` of `src/helper.py`)
and proves the specified properties about it.

Modelling decisions:
* Python `dict`s are insertion-ordered association lists.  `dictSet`
  updates the value in place when the key is present (keeping its
  position) and appends a fresh entry otherwise, exactly as CPython does;
  `dictGet` is `dict.get` with a default, `dictFind` is subscript lookup
  returning `Option` (a `KeyError` becomes `none`).
* Numeric values (sentiment labels, predictions, scores) are rationals.
* The external model object is a pair of pure functions `fit` / `predict`
  over an explicit state type `σ`; `fit` returns the new state and
  `predict` is applied row-wise (the sklearn contract: `predict(X)` yields
  one value per row of `X`).
* sklearn's `KFold` shuffle is modelled by an explicit permutation
  parameter `perm` standing for the (possibly shuffled) `arange(M)`;
  `shuffle=False` corresponds to `perm = List.range M`.
* A raised Python exception is an `Except.error`.
-/

set_option autoImplicit false

namespace Semeval

universe u v

/-! ## Python dictionaries as insertion-ordered association lists -/

/-- `dict.get(k, dflt)`: value of the first entry with key `k`, else the
default. -/
def dictGet {κ : Type u} {ν : Type v} [DecidableEq κ] :
    List (κ × ν) → κ → ν → ν
  | [], _, dflt => dflt
  | p :: d, k, dflt => if p.1 = k then p.2 else dictGet d k dflt

/-- `d[k] = v`: replace the value of the first entry with key `k` keeping
its position, else append a new entry at the end (CPython semantics). -/
def dictSet {κ : Type u} {ν : Type v} [DecidableEq κ] :
    List (κ × ν) → κ → ν → List (κ × ν)
  | [], k, v => [(k, v)]
  | p :: d, k, v => if p.1 = k then (k, v) :: d else p :: dictSet d k v

/-- `d[k]` as an `Option`: `none` models a `KeyError`. -/
def dictFind {κ : Type u} {ν : Type v} [DecidableEq κ] :
    List (κ × ν) → κ → Option ν
  | [], _ => none
  | p :: d, k => if p.1 = k then some p.2 else dictFind d k

/-- `d.values()` in iteration order. -/
def dictVals {κ : Type u} {ν : Type v} (d : List (κ × ν)) : List ν :=
  d.map Prod.snd

/-! ## Data model -/

/-- One element of the list returned by `error_cross_validate`: the tuple
`(test[i], pred_value[0], score_function(pred_value, real_value))`. -/
structure ScoredPred where
  index : Nat
  pred : ℚ
  score : ℚ
  deriving DecidableEq, Repr

/-- The dictionary built by `top_n_errors` for one top error:
`{'Sentence': ..., 'Company': ..., 'True value': ..., 'Pred value': ...,
'index': ...}`. -/
structure ErrorRecord where
  sentence : String
  company : String
  trueValue : ℚ
  predValue : ℚ
  index : Nat
  deriving DecidableEq, Repr

/-- The external regressor: an object with `fit` (returning its new
internal state) and a row-wise `predict`. -/
structure SkModel (σ : Type u) where
  fit : σ → List String → List ℚ → σ
  predict : σ → String → ℚ

/-- The `train_text` argument of `error_analysis`: its default is the
Python boolean `False`, but callers may pass a list of strings or a
string; the code branches on Python truthiness. -/
inductive GroupText where
  | bool (b : Bool)
  | lst (l : List String)
  | str (s : String)

/-- Python truthiness of a `train_text` value: `False`, `[]` and `\"\"`
are falsy. -/
def GroupText.truthy : GroupText → Bool
  | .bool b => b
  | .lst l => !l.isEmpty
  | .str s => !s.isEmpty

/-- The sequence of texts a truthy `train_text` denotes when iterated by
index (a string yields its characters). -/
def GroupText.toTexts : GroupText → List String
  | .bool _ => []
  | .lst l => l
  | .str s => s.toList.map (fun c => String.mk [c])

/-! ## KFold (sklearn) -/

/-- sklearn fold sizes: `n_samples // n_splits` everywhere, plus one for
the first `n_samples % n_splits` folds. -/
def foldSizes (m k : Nat) : List Nat :=
  (List.range k).map (fun i => m / k + if i < m % k then 1 else 0)

/-- Cut a list into consecutive chunks of the given sizes. -/
def splitSizes {α : Type u} : List α → List Nat → List (List α)
  | _, [] => []
  | l, s :: ss => l.take s :: splitSizes (l.drop s) ss

/-- The index order `KFold` slices: the shuffled permutation when
`shuffle=True`, else `arange(m)`. -/
def kfoldIndices (m : Nat) (shuffle : Bool) (perm : List Nat) : List Nat :=
  if shuffle then perm else List.range m

/-- The list of test-index sets yielded by `KFold(n_splits=k).split`. -/
def kfoldTestFolds (m : Nat) (shuffle : Bool) (perm : List Nat) (k : Nat) :
    List (List Nat) :=
  splitSizes (kfoldIndices m shuffle perm) (foldSizes m k)

/-- `data[idxs]` via numpy fancy indexing (the embedding supplies a
default for the total `getD`; all accesses in the theorems are in
range). -/
def subsetD {α : Type u} (data : List α) (dflt : α) (idxs : List Nat) :
    List α :=
  idxs.map (fun i => data.getD i dflt)

/-! ## error_cross_validate -/

/-- The inner loop of `error_cross_validate`: for `i` in
`range(len(predicted_values))`, append the record
`(test[i], pred_value[0], score_function(pred_value, real_value))` where
`pred_value = [predicted_values[i]]` and
`real_value = [real_values[i]] = [train_values[test[i]]]`. -/
def ecvRecs (trainValues : List ℚ) (scoreFn : List ℚ → List ℚ → ℚ)
    (test : List Nat) (predictedValues : List ℚ) : List ScoredPred :=
  (List.range predictedValues.length).map (fun i =>
    { index := test.getD i 0
      pred := [predictedValues.getD i 0].getD 0 0
      score := scoreFn [predictedValues.getD i 0]
        [trainValues.getD (test.getD i 0) 0] })

/-- Body of the fold loop of `error_cross_validate`: fit on the
complement of the test fold, predict the held-out rows, and append one
`(index, prediction, score)` record per held-out example. -/
def ecvStep {σ : Type u} (trainData : List String) (trainValues : List ℚ)
    (model : SkModel σ) (scoreFn : List ℚ → List ℚ → ℚ)
    (acc : List ScoredPred × σ) (test : List Nat) : List ScoredPred × σ :=
  let train := (List.range trainData.length).filter (fun i => decide (i ∉ test))
  let st1 := model.fit acc.2 (subsetD trainData "" train) (subsetD trainValues 0 train)
  let predictedValues := (subsetD trainData "" test).map (model.predict st1)
  (acc.1 ++ ecvRecs trainValues scoreFn test predictedValues, st1)

/-- `error_cross_validate(train_data, train_values, model, n_folds,
shuffle, score_function)` of `helper.py`.  `KFold.__init__` rejects
`n_splits < 2` and `KFold.split` rejects `n_splits > n_samples` before
yielding any fold; both become `Except.error` here.  On success it
returns the flat record list together with the model state after the
last fold. -/
def error_cross_validate {σ : Type u} (trainData : List String)
    (trainValues : List ℚ) (model : SkModel σ) (st : σ) (nFolds : Nat)
    (shuffle : Bool) (perm : List Nat) (scoreFn : List ℚ → List ℚ → ℚ) :
    Except String (List ScoredPred × σ) :=
  if nFolds < 2 then
    .error "k-fold cross-validation requires at least one train/test split"
  else if trainData.length < nFolds then
    .error "Cannot have number of splits greater than the number of samples"
  else
    .ok ((kfoldTestFolds trainData.length shuffle perm nFolds).foldl
      (ecvStep trainData trainValues model scoreFn) ([], st))

/-! ## top_n_errors -/

/-- Insert one element into an already-sorted (descending by score) list,
after every element of greater-or-equal score: the insertion step of a
stable descending sort. -/
def pyInsertDesc (x : ScoredPred) : List ScoredPred → List ScoredPred
  | [] => [x]
  | y :: ys => if y.score ≤ x.score then x :: y :: ys else y :: pyInsertDesc x ys

/-- Python's `sorted(error_res, key=lambda value: value[2], reverse=True)`:
the (unique) stable sort by score descending. -/
def pySortDesc : List ScoredPred → List ScoredPred
  | [] => []
  | x :: xs => pyInsertDesc x (pySortDesc xs)

/-- The dictionary `top_n_errors` builds for one scored prediction. -/
def mkErrorRecord (trainData : List String) (trainValues : List ℚ)
    (companies : List String) (sp : ScoredPred) : ErrorRecord :=
  { sentence := trainData.getD sp.index ""
    company := companies.getD sp.index ""
    trueValue := trainValues.getD sp.index 0
    predValue := sp.pred
    index := sp.index }

/-- `top_n_errors(error_res, train_data, train_values, companies, n)` of
`helper.py`: sort by score descending (stably), keep the first `n`, and
resolve each kept record against the parallel input sequences. -/
def top_n_errors (errorRes : List ScoredPred) (trainData : List String)
    (trainValues : List ℚ) (companies : List String) (n : Nat) :
    List ErrorRecord :=
  ((pySortDesc errorRes).take n).map (mkErrorRecord trainData trainValues companies)

/-! ## comps2sent -/

/-- The first loop of `comps2sent(text_data, companies)`: the
`sentence_compid` dictionary, grouping `(company, index)` pairs by exact
sentence text. -/
def sentenceCompid (textData : List String) (companies : List String) :
    List (String × List (String × Nat)) :=
  (List.range textData.length).foldl
    (fun d i =>
      dictSet d (textData.getD i "")
        (dictGet d (textData.getD i "") [] ++ [(companies.getD i "", i)]))
    []

/-- `comps2sent(text_data, companies)` of `helper.py`: group indices by
exact sentence text, then bucket the per-sentence index lists by the
number of companies sharing the sentence. -/
def comps2sent (textData : List String) (companies : List String) :
    List (Nat × List (List Nat)) :=
  (sentenceCompid textData companies).foldl
    (fun d p =>
      dictSet d p.2.length (dictGet d p.2.length [] ++ [p.2.map Prod.snd]))
    []

/-! ## sent_type_errors -/

/-- The inverted `ids_compscount` lookup of `sent_type_errors`: for every
`(compscount, ids_list)` entry, every id of every inner list is assigned
`compscount` (later assignments overwrite earlier ones). -/
def buildIdsCompscount (compscountIds : List (Nat × List (List Nat))) :
    List (Nat × Nat) :=
  compscountIds.foldl
    (fun acc p =>
      p.2.foldl (fun acc2 ids =>
        ids.foldl (fun acc3 aId => dictSet acc3 aId p.1) acc2) acc)
    []

/-- The second loop of `sent_type_errors`: append each error to the
bucket of its company count; a missing index raises `KeyError`. -/
def sentTypeLoop (idsCompscount : List (Nat × Nat)) :
    List ErrorRecord → List (Nat × List ErrorRecord) →
    Except String (List (Nat × List ErrorRecord))
  | [], acc => .ok acc
  | e :: es, acc =>
    match dictFind idsCompscount e.index with
    | none => .error ("KeyError: " ++ toString e.index)
    | some compCount =>
      sentTypeLoop idsCompscount es
        (dictSet acc compCount (dictGet acc compCount [] ++ [e]))

/-- `sent_type_errors(top_errors, compscount_ids)` of `helper.py`. -/
def sent_type_errors (topErrors : List ErrorRecord)
    (compscountIds : List (Nat × List (List Nat))) :
    Except String (List (Nat × List ErrorRecord)) :=
  sentTypeLoop (buildIdsCompscount compscountIds) topErrors []

/-! ## Auxiliary definitions for the proofs -/

/-- A heap of Python list objects; a reference is an index into the
heap.  This lets the frame property of `top_n_errors` (no in-place
mutation of `error_res`) be stated observably. -/
abbrev SPHeap := List (List ScoredPred)

/-- Dereference a heap cell. -/
def heapGet (h : SPHeap) (r : Nat) : List ScoredPred := h.getD r []

/-- `sorted(error_res, ...)` allocates a fresh list object holding the
sorted contents and returns a reference to it. -/
def sortedAlloc (h : SPHeap) (r : Nat) : SPHeap × Nat :=
  (h ++ [pySortDesc (heapGet h r)], h.length)

/-- A slice `xs[:n]` allocates a fresh list object. -/
def sliceAlloc (h : SPHeap) (r n : Nat) : SPHeap × Nat :=
  (h ++ [(heapGet h r).take n], h.length)

/-- `top_n_errors` statement by statement over the heap: the local name
`error_res` is rebound to the freshly allocated sorted list, `top_errors`
to the freshly allocated slice, and the result is a fresh comprehension;
the argument's cell is never written. -/
def topNErrorsProg (h : SPHeap) (r : Nat) (trainData : List String)
    (trainValues : List ℚ) (companies : List String) (n : Nat) :
    SPHeap × List ErrorRecord :=
  let p1 := sortedAlloc h r
  let p2 := sliceAlloc p1.1 p1.2 n
  (p2.1, (heapGet p2.1 p2.2).map (mkErrorRecord trainData trainValues companies))

/-- Sequence of single-key dictionary assignments `d[k] = v`. -/
def setAll (d : List (Nat × Nat)) (l : List (Nat × Nat)) : List (Nat × Nat) :=
  l.foldl (fun d q => dictSet d q.1 q.2) d

/-- The `(a_id, compscount)` assignment sequence performed by the
triple-nested inversion loop of `sent_type_errors`, flattened in
execution order. -/
def pairsOf (compscountIds : List (Nat × List (List Nat))) : List (Nat × Nat) :=
  (compscountIds.map (fun p => p.2.flatten.map (fun a => (a, p.1)))).flatten

/-- Index `i` appears under entity-count `c` in a `comps2sent`-shaped
dictionary: some bucket keyed `c` has an inner list containing `i`. -/
abbrev appearsUnder (compscountIds : List (Nat × List (List Nat)))
    (i c : Nat) : Prop :=
  ∃ p ∈ compscountIds, p.1 = c ∧ ∃ l ∈ p.2, i ∈ l

/-! ## error_analysis -/

/-- The tail of `error_analysis` after the grouping dictionary has been
chosen: cross-validate, rank, stratify, and derive the distribution from
the strata's list lengths. -/
def errorAnalysisCore {σ : Type u} (compcountId : List (Nat × List (List Nat)))
    (trainData : List String) (trainValues : List ℚ)
    (trainComps : List String) (clf : SkModel σ) (st : σ) (numErrors : Nat)
    (nFolds : Nat) (shuffle : Bool) (perm : List Nat)
    (scoreFn : List ℚ → List ℚ → ℚ) :
    Except String (List (Nat × List ErrorRecord) × List (Nat × Nat)) :=
  match error_cross_validate trainData trainValues clf st nFolds shuffle perm
      scoreFn with
  | .error e => .error e
  | .ok (errorResults, _) =>
    let topErrors := top_n_errors errorResults trainData trainValues trainComps
      numErrors
    match sent_type_errors topErrors compcountId with
    | .error e => .error e
    | .ok errorDetails =>
      .ok (errorDetails, errorDetails.map (fun p => (p.1, p.2.length)))

/-- `error_analysis(train_data, train_values, train_comps, clf,
train_text, num_errors, n_folds, shuffle, score_function)` of
`helper.py`: `if train_text:` (Python truthiness) selects the grouping
text, then the rest of the pipeline runs. -/
def error_analysis {σ : Type u} (trainData : List String)
    (trainValues : List ℚ) (trainComps : List String) (clf : SkModel σ)
    (st : σ) (trainText : GroupText) (numErrors : Nat) (nFolds : Nat)
    (shuffle : Bool) (perm : List Nat) (scoreFn : List ℚ → List ℚ → ℚ) :
    Except String (List (Nat × List ErrorRecord) × List (Nat × Nat)) :=
  let compcountId :=
    if trainText.truthy then comps2sent trainText.toTexts trainComps
    else comps2sent trainData trainComps
  errorAnalysisCore compcountId trainData trainValues trainComps clf st
    numErrors nFolds shuffle perm scoreFn

/-! ## Dictionary lemmas -/

theorem dictVals_cons {κ : Type u} {ν : Type v} (p : κ × ν) (d : List (κ × ν)) :
    dictVals (p :: d) = p.2 :: dictVals d := rfl

/-- Appending one element to a key's bucket adds exactly that element to
the multiset of all bucket elements. -/
theorem dictVals_set_append_perm {κ : Type u} {ν : Type v} [DecidableEq κ]
    (d : List (κ × List ν)) (k : κ) (x : ν) :
    List.Perm ((dictVals (dictSet d k (dictGet d k [] ++ [x]))).flatten)
      (x :: (dictVals d).flatten) := by
  induction d with
  | nil => simp [dictGet, dictSet, dictVals]
  | cons p d ih =>
    by_cases h : p.1 = k
    · simp only [dictGet, dictSet, if_pos h, dictVals_cons, List.flatten_cons]
      rw [List.append_assoc]
      exact List.perm_middle
    · simp only [dictGet, dictSet, if_neg h, dictVals_cons, List.flatten_cons]
      exact (ih.append_left p.2).trans List.perm_middle

theorem mem_dictSet {κ : Type u} {ν : Type v} [DecidableEq κ]
    {d : List (κ × ν)} {k : κ} {v : ν} {q : κ × ν}
    (h : q ∈ dictSet d k v) : q ∈ d ∨ q = (k, v) := by
  induction d with
  | nil => simpa [dictSet] using h
  | cons p d ih =>
    by_cases hp : p.1 = k
    · simp only [dictSet, if_pos hp, List.mem_cons] at h
      rcases h with h | h
      · exact Or.inr h
      · exact Or.inl (List.mem_cons_of_mem _ h)
    · simp only [dictSet, if_neg hp, List.mem_cons] at h
      rcases h with h | h
      · exact Or.inl (h ▸ List.mem_cons_self _ _)
      · rcases ih h with h' | h'
        · exact Or.inl (List.mem_cons_of_mem _ h')
        · exact Or.inr h'

theorem dictGet_default_or_mem {κ : Type u} {ν : Type v} [DecidableEq κ]
    (d : List (κ × ν)) (k : κ) (dflt : ν) :
    dictGet d k dflt = dflt ∨ (k, dictGet d k dflt) ∈ d := by
  induction d with
  | nil => exact Or.inl rfl
  | cons p d ih =>
    obtain ⟨a, b⟩ := p
    by_cases hp : a = k
    · subst hp
      simp [dictGet]
    · simp only [dictGet, if_neg hp]
      rcases ih with h | h
      · exact Or.inl h
      · exact Or.inr (List.mem_cons_of_mem _ h)

theorem dictFind_set {κ : Type u} {ν : Type v} [DecidableEq κ]
    (d : List (κ × ν)) (k k' : κ) (v : ν) :
    dictFind (dictSet d k v) k' = if k' = k then some v else dictFind d k' := by
  induction d with
  | nil =>
    by_cases h : k' = k
    · subst h; simp [dictSet, dictFind]
    · have h' : ¬ k = k' := fun hh => h hh.symm
      simp [dictSet, dictFind, h, h']
  | cons p d ih =>
    obtain ⟨a, b⟩ := p
    by_cases hp : a = k
    · subst hp
      by_cases h : k' = a
      · subst h; simp [dictSet, dictFind]
      · have h' : ¬ a = k' := fun hh => h hh.symm
        simp [dictSet, dictFind, h, h']
    · by_cases hq : a = k'
      · subst hq
        simp [dictSet, dictFind, hp, fun hh : a = k => hp hh]
      · simp [dictSet, dictFind, hp, hq, ih]

/-- Folding a grouping step (append `val i` to the bucket of `key i`)
over a list adds exactly the mapped values to the multiset of all bucket
elements. -/
theorem foldl_group_perm {ι : Type u} {κ : Type v} {ν : Type u}
    [DecidableEq κ] (key : ι → κ) (val : ι → ν) :
    ∀ (l : List ι) (d : List (κ × List ν)),
      List.Perm
        ((dictVals (l.foldl
            (fun d i => dictSet d (key i) (dictGet d (key i) [] ++ [val i]))
            d)).flatten)
        (l.map val ++ (dictVals d).flatten)
  | [], d => by simp
  | i :: l, d => by
    simp only [List.foldl_cons, List.map_cons, List.cons_append]
    refine (foldl_group_perm key val l _).trans ?_
    refine (((dictVals_set_append_perm d (key i) (val i)).append_left
      (l.map val)).trans ?_)
    exact List.perm_middle

/-! ## comps2sent: the partition invariant (C3) -/

/-- The first loop of `comps2sent` distributes exactly the
`(company, index)` pairs of the input over the sentence buckets. -/
theorem sentenceCompid_flatten_perm (texts companies : List String) :
    List.Perm ((dictVals (sentenceCompid texts companies)).flatten)
      ((List.range texts.length).map (fun i => (companies.getD i "", i))) := by
  have h1 := foldl_group_perm (fun i : Nat => texts.getD i "")
    (fun i : Nat => (companies.getD i "", i)) (List.range texts.length) []
  simpa [sentenceCompid, dictVals] using h1

/-- The second loop of `comps2sent` distributes exactly the per-sentence
index lists over the count buckets. -/
theorem comps2sent_flatten_perm (texts companies : List String) :
    List.Perm ((dictVals (comps2sent texts companies)).flatten)
      ((sentenceCompid texts companies).map (fun p => p.2.map Prod.snd)) := by
  have h2 := foldl_group_perm
    (fun p : String × List (String × Nat) => p.2.length)
    (fun p : String × List (String × Nat) => p.2.map Prod.snd)
    (sentenceCompid texts companies) []
  simpa [comps2sent, dictVals] using h2

/-- C3: for every pair of equal-length parallel sequences `texts` and
`entities`, the output of `comps2sent`, flattened across all buckets and
all inner index lists, is a permutation of `{0, ..., len(texts) - 1}`:
the buckets' inner lists partition the index domain, each index appearing
exactly once. -/
theorem comps2sent_partition (texts companies : List String)
    (hlen : companies.length = texts.length) :
    List.Perm ((dictVals (comps2sent texts companies)).flatten.flatten)
      (List.range texts.length) := by
  refine ((comps2sent_flatten_perm texts companies).flatten).trans ?_
  have hmap : (sentenceCompid texts companies).map (fun p => p.2.map Prod.snd)
      = (dictVals (sentenceCompid texts companies)).map (List.map Prod.snd) := by
    rw [dictVals, List.map_map]
    rfl
  rw [hmap, ← List.map_flatten]
  refine ((sentenceCompid_flatten_perm texts companies).map Prod.snd).trans ?_
  rw [List.map_map]
  simp [Function.comp_def]

theorem comps2sent_partition_witness :
    (["x", "y", "z"] : List String).length = (["a", "a", "b"] : List String).length ∧
    List.Perm ((dictVals (comps2sent ["a", "a", "b"] ["x", "y", "z"])).flatten.flatten)
      (List.range (["a", "a", "b"] : List String).length) :=
  ⟨rfl, comps2sent_partition ["a", "a", "b"] ["x", "y", "z"] rfl⟩

/-! ## top_n_errors: sortedness, stability, truncation (C2) -/

theorem pyInsertDesc_perm (x : ScoredPred) (l : List ScoredPred) :
    List.Perm (pyInsertDesc x l) (x :: l) := by
  induction l with
  | nil => exact List.Perm.refl _
  | cons y ys ih =>
    by_cases hle : y.score ≤ x.score
    · simp only [pyInsertDesc, if_pos hle]
      exact List.Perm.refl _
    · simp only [pyInsertDesc, if_neg hle]
      exact (ih.cons y).trans (List.Perm.swap x y ys)

theorem pySortDesc_perm (l : List ScoredPred) :
    List.Perm (pySortDesc l) l := by
  induction l with
  | nil => exact List.Perm.refl _
  | cons x xs ih =>
    exact (pyInsertDesc_perm x (pySortDesc xs)).trans (ih.cons x)

theorem mem_pyInsertDesc {z x : ScoredPred} {l : List ScoredPred}
    (h : z ∈ pyInsertDesc x l) : z = x ∨ z ∈ l := by
  have := (pyInsertDesc_perm x l).mem_iff.mp h
  simpa using this

theorem pyInsertDesc_pairwise (x : ScoredPred) (l : List ScoredPred)
    (h : List.Pairwise (fun a b => b.score ≤ a.score) l) :
    List.Pairwise (fun a b => b.score ≤ a.score) (pyInsertDesc x l) := by
  induction l with
  | nil => simp [pyInsertDesc]
  | cons y ys ih =>
    rcases List.pairwise_cons.mp h with ⟨hy, hys⟩
    by_cases hle : y.score ≤ x.score
    · simp only [pyInsertDesc, if_pos hle]
      refine List.pairwise_cons.mpr ⟨?_, h⟩
      intro z hz
      rcases List.mem_cons.mp hz with hz | hz
      · exact hz ▸ hle
      · exact (hy z hz).trans hle
    · simp only [pyInsertDesc, if_neg hle]
      refine List.pairwise_cons.mpr ⟨?_, ih hys⟩
      intro z hz
      rcases mem_pyInsertDesc hz with hz | hz
      · exact hz ▸ le_of_lt (lt_of_not_le hle)
      · exact hy z hz

theorem pySortDesc_pairwise (l : List ScoredPred) :
    List.Pairwise (fun a b => b.score ≤ a.score) (pySortDesc l) := by
  induction l with
  | nil => simp [pySortDesc]
  | cons x xs ih => exact pyInsertDesc_pairwise x (pySortDesc xs) ih

/-- Inserting below all strictly greater scores keeps every
equal-score class in order: the filter by any score value gains `x` at
the front exactly when `x` has that score. -/
theorem pyInsertDesc_filter (x : ScoredPred) (l : List ScoredPred) (s : ℚ) :
    (pyInsertDesc x l).filter (fun r => decide (r.score = s)) =
      if x.score = s then x :: l.filter (fun r => decide (r.score = s))
      else l.filter (fun r => decide (r.score = s)) := by
  induction l with
  | nil =>
    by_cases h : x.score = s <;> simp [pyInsertDesc, List.filter_cons, h]
  | cons y ys ih =>
    by_cases hle : y.score ≤ x.score
    · rw [pyInsertDesc, if_pos hle]
      by_cases h : x.score = s <;> simp [List.filter_cons, h]
    · rw [pyInsertDesc, if_neg hle]
      have hgt : x.score < y.score := lt_of_not_le hle
      simp only [List.filter_cons, ih]
      by_cases h : x.score = s
      · have hy : ¬ y.score = s := by
          rw [← h]
          exact ne_of_gt hgt
        simp [h, hy]
      · by_cases hy : y.score = s <;> simp [h, hy]

/-- Stability of the sort of `top_n_errors`: for every score value, the
records carrying that score appear in the sorted output in exactly their
original relative order. -/
theorem pySortDesc_filter (l : List ScoredPred) (s : ℚ) :
    (pySortDesc l).filter (fun r => decide (r.score = s)) =
      l.filter (fun r => decide (r.score = s)) := by
  induction l with
  | nil => rfl
  | cons x xs ih =>
    rw [pySortDesc, pyInsertDesc_filter]
    by_cases h : x.score = s <;> simp [List.filter_cons, h, ih]

/-- C2: `top_n_errors` returns `min n (len input)` records built from the
stable descending sort of the input: the sorted list is pairwise
descending in score, is a permutation of the input, ties keep the
original relative order (the filter by each score value is unchanged),
and the output is the first `n` sorted records resolved against the
parallel data sequences. -/
theorem top_n_errors_spec (errorRes : List ScoredPred)
    (trainData : List String) (trainValues : List ℚ)
    (companies : List String) (n : Nat) :
    (top_n_errors errorRes trainData trainValues companies n).length
        = min n errorRes.length
      ∧ List.Pairwise (fun a b => b.score ≤ a.score) (pySortDesc errorRes)
      ∧ List.Perm (pySortDesc errorRes) errorRes
      ∧ (∀ s : ℚ, (pySortDesc errorRes).filter (fun r => decide (r.score = s))
          = errorRes.filter (fun r => decide (r.score = s)))
      ∧ top_n_errors errorRes trainData trainValues companies n
          = ((pySortDesc errorRes).take n).map
              (mkErrorRecord trainData trainValues companies) := by
  refine ⟨?_, pySortDesc_pairwise errorRes, pySortDesc_perm errorRes,
    fun s => pySortDesc_filter errorRes s, rfl⟩
  simp [top_n_errors, List.length_take, (pySortDesc_perm errorRes).length_eq]

/-! ## top_n_errors leaves its argument unchanged (C9) -/

/-- C9: `top_n_errors` does not mutate its scored-predictions argument:
after the call the heap cell passed in holds exactly its original list,
and the returned records are those of the pure function applied to that
unchanged list. -/
theorem top_n_errors_no_mutation (h : SPHeap) (r : Nat)
    (trainData : List String) (trainValues : List ℚ)
    (companies : List String) (n : Nat) (hr : r < h.length) :
    heapGet (topNErrorsProg h r trainData trainValues companies n).1 r
        = heapGet h r
      ∧ (topNErrorsProg h r trainData trainValues companies n).2
        = top_n_errors (heapGet h r) trainData trainValues companies n := by
  constructor
  · show ((h ++ [pySortDesc (heapGet h r)]) ++
        [(heapGet (h ++ [pySortDesc (heapGet h r)]) h.length).take n]).getD r []
      = h.getD r []
    have h1 : r < (h ++ [pySortDesc (heapGet h r)]).length := by
      rw [List.length_append]
      omega
    rw [List.getD_append _ _ _ r h1, List.getD_append _ _ _ r hr]
  · show (heapGet ((h ++ [pySortDesc (heapGet h r)]) ++
        [(heapGet (h ++ [pySortDesc (heapGet h r)]) h.length).take n])
        (h ++ [pySortDesc (heapGet h r)]).length).map
          (mkErrorRecord trainData trainValues companies)
      = top_n_errors (heapGet h r) trainData trainValues companies n
    rw [heapGet, List.getD_eq_getElem?_getD, List.getElem?_concat_length,
      Option.getD_some, heapGet, List.getD_eq_getElem?_getD,
      List.getElem?_concat_length, Option.getD_some]
    rfl

theorem top_n_errors_no_mutation_witness :
    (0 : Nat) < ([[⟨0, 1, 2⟩, ⟨1, 0, 3⟩]] : SPHeap).length
      ∧ (heapGet (topNErrorsProg [[⟨0, 1, 2⟩, ⟨1, 0, 3⟩]] 0 ["s", "t"] [5, 6]
            ["c", "d"] 1).1 0
          = heapGet [[⟨0, 1, 2⟩, ⟨1, 0, 3⟩]] 0
        ∧ (topNErrorsProg [[⟨0, 1, 2⟩, ⟨1, 0, 3⟩]] 0 ["s", "t"] [5, 6]
            ["c", "d"] 1).2
          = top_n_errors (heapGet [[⟨0, 1, 2⟩, ⟨1, 0, 3⟩]] 0) ["s", "t"] [5, 6]
            ["c", "d"] 1) :=
  ⟨by decide,
    top_n_errors_no_mutation [[⟨0, 1, 2⟩, ⟨1, 0, 3⟩]] 0 ["s", "t"] [5, 6]
      ["c", "d"] 1 (by decide)⟩

/-! ## error_cross_validate: fold partition and per-example scoring
(C1, C6, C7) -/

theorem range_map_getD (l : List Nat) :
    (List.range l.length).map (fun i => l.getD i 0) = l := by
  induction l with
  | nil => rfl
  | cons x xs ih =>
    rw [List.length_cons, List.range_succ_eq_map, List.map_cons, List.map_map]
    have hc : ((fun i => (x :: xs).getD i 0) ∘ Nat.succ)
        = fun i => xs.getD i 0 := by
      funext i
      simp [List.getD_cons_succ]
    rw [hc, ih]
    simp

theorem getD_map_lt {α : Type u} {β : Type v} (f : α → β) (l : List α)
    (i : Nat) (h : i < l.length) (d : α) (d' : β) :
    (l.map f).getD i d' = f (l.getD i d) := by
  rw [List.getD_eq_getElem?_getD, List.getElem?_map,
    List.getElem?_eq_getElem h, List.getD_eq_getElem?_getD,
    List.getElem?_eq_getElem h]
  rfl

/-- The per-fold records carry exactly the fold's test indices, in
order. -/
theorem ecvRecs_map_index (trainValues : List ℚ)
    (scoreFn : List ℚ → List ℚ → ℚ) (test : List Nat)
    (predictedValues : List ℚ)
    (h : predictedValues.length = test.length) :
    (ecvRecs trainValues scoreFn test predictedValues).map ScoredPred.index
      = test := by
  rw [ecvRecs, List.map_map, h]
  exact range_map_getD test

/-- Every record the inner loop emits scores its own example: the score
is `score_fn` of the singleton prediction and the singleton true value
at the record's index, and the prediction is the model's prediction for
the row at that index. -/
theorem mem_ecvRecs_spec {σ : Type u} (trainData : List String)
    (trainValues : List ℚ) (model : SkModel σ)
    (scoreFn : List ℚ → List ℚ → ℚ) (st1 : σ) (test : List Nat)
    {r : ScoredPred}
    (hr : r ∈ ecvRecs trainValues scoreFn test
      ((subsetD trainData "" test).map (model.predict st1))) :
    r.score = scoreFn [r.pred] [trainValues.getD r.index 0]
      ∧ ∃ s : σ, r.pred = model.predict s (trainData.getD r.index "") := by
  rw [ecvRecs] at hr
  rcases List.mem_map.mp hr with ⟨i, hi, hr'⟩
  have hilen : i < test.length := by
    have := List.mem_range.mp hi
    simpa [subsetD] using this
  subst hr'
  refine ⟨rfl, st1, ?_⟩
  show ((subsetD trainData "" test).map (model.predict st1)).getD i 0
      = model.predict st1 (trainData.getD (test.getD i 0) "")
  rw [subsetD, getD_map_lt (model.predict st1) _ i (by simpa using hilen) "" 0,
    getD_map_lt _ test i hilen 0 ""]

/-- The fold loop appends the folds' test indices in order and every
record it emits satisfies the per-example scoring property. -/
theorem ecv_foldl_spec {σ : Type u} (trainData : List String)
    (trainValues : List ℚ) (model : SkModel σ)
    (scoreFn : List ℚ → List ℚ → ℚ) :
    ∀ (folds : List (List Nat)) (acc : List ScoredPred × σ),
      ((folds.foldl (ecvStep trainData trainValues model scoreFn) acc).1).map
          ScoredPred.index
        = acc.1.map ScoredPred.index ++ folds.flatten
      ∧ ∀ r ∈ (folds.foldl (ecvStep trainData trainValues model scoreFn) acc).1,
          r ∈ acc.1
            ∨ (r.score = scoreFn [r.pred] [trainValues.getD r.index 0]
              ∧ ∃ s : σ, r.pred = model.predict s (trainData.getD r.index ""))
  | [], acc => ⟨by simp, fun r hr => Or.inl hr⟩
  | t :: folds, acc => by
    have ih := ecv_foldl_spec trainData trainValues model scoreFn folds
      (ecvStep trainData trainValues model scoreFn acc t)
    have hstep : (ecvStep trainData trainValues model scoreFn acc t).1
        = acc.1 ++ ecvRecs trainValues scoreFn t
            ((subsetD trainData "" t).map (model.predict
              (model.fit acc.2
                (subsetD trainData ""
                  ((List.range trainData.length).filter (fun i => decide (i ∉ t))))
                (subsetD trainValues 0
                  ((List.range trainData.length).filter (fun i => decide (i ∉ t))))))) :=
      rfl
    constructor
    · rw [List.foldl_cons, ih.1, hstep, List.map_append,
        ecvRecs_map_index _ _ _ _ (by simp [subsetD]), List.flatten_cons,
        List.append_assoc]
    · intro r hr
      rcases ih.2 r (by rw [List.foldl_cons] at hr; exact hr) with hmem | hspec
      · rw [hstep] at hmem
        rcases List.mem_append.mp hmem with hmem | hmem
        · exact Or.inl hmem
        · exact Or.inr (mem_ecvRecs_spec trainData trainValues model scoreFn _ t hmem)
      · exact Or.inr hspec

theorem flatten_splitSizes {α : Type u} :
    ∀ (ss : List Nat) (l : List α), (splitSizes l ss).flatten = l.take ss.sum
  | [], l => by simp [splitSizes]
  | s :: ss, l => by
    rw [splitSizes, List.flatten_cons, flatten_splitSizes ss (l.drop s),
      List.sum_cons, List.take_add]

/-- The sklearn fold sizes sum to the sample count. -/
theorem foldSizes_sum (m k : Nat) (hk : 0 < k) : (foldSizes m k).sum = m := by
  have aux : ∀ j,
      ((List.range j).map (fun i => m / k + if i < m % k then 1 else 0)).sum
        = j * (m / k) + min j (m % k) := by
    intro j
    induction j with
    | zero => simp
    | succ j ih =>
      rw [List.range_succ, List.map_append, List.sum_append, ih]
      simp only [List.map_cons, List.map_nil, List.sum_cons, List.sum_nil]
      by_cases hj : j < m % k
      · rw [if_pos hj, Nat.min_eq_left (by omega), Nat.min_eq_left (by omega)]
        ring
      · rw [if_neg hj, Nat.min_eq_right (by omega), Nat.min_eq_right (by omega)]
        ring
  rw [foldSizes, aux k, Nat.min_eq_right (le_of_lt (Nat.mod_lt m hk))]
  have := Nat.div_add_mod m k
  omega

/-- For a valid `k` the `KFold` test folds concatenate to the full index
order. -/
theorem kfoldTestFolds_flatten (m : Nat) (shuffle : Bool) (perm : List Nat)
    (k : Nat) (hk : 0 < k) (hperm : List.Perm perm (List.range m)) :
    (kfoldTestFolds m shuffle perm k).flatten = kfoldIndices m shuffle perm := by
  rw [kfoldTestFolds, flatten_splitSizes, foldSizes_sum m k hk]
  have hlen : (kfoldIndices m shuffle perm).length = m := by
    rw [kfoldIndices]
    by_cases hs : shuffle
    · simp [hs, hperm.length_eq]
    · simp [hs]
  exact List.take_of_length_le (by omega)

theorem kfoldIndices_perm (m : Nat) (shuffle : Bool) (perm : List Nat)
    (hperm : List.Perm perm (List.range m)) :
    List.Perm (kfoldIndices m shuffle perm) (List.range m) := by
  rw [kfoldIndices]
  by_cases hs : shuffle
  · simpa [hs] using hperm
  · simp [hs]

/-- C1: for a dataset of size `M` and any `k` with `2 ≤ k ≤ M`,
`error_cross_validate` succeeds and returns exactly `M` scored-prediction
records whose original indices are a permutation of `{0, ..., M - 1}`:
the `k` test folds partition the index range. -/
theorem error_cross_validate_partition {σ : Type u} (trainData : List String)
    (trainValues : List ℚ) (model : SkModel σ) (st : σ) (k : Nat)
    (shuffle : Bool) (perm : List Nat) (scoreFn : List ℚ → List ℚ → ℚ)
    (M : Nat) (hM : trainData.length = M) (hk2 : 2 ≤ k) (hkM : k ≤ M)
    (hperm : List.Perm perm (List.range M)) :
    ∃ res st',
      error_cross_validate trainData trainValues model st k shuffle perm scoreFn
          = .ok (res, st')
        ∧ res.length = M
        ∧ List.Perm (res.map ScoredPred.index) (List.range M) := by
  subst hM
  rw [error_cross_validate, if_neg (by omega), if_neg (by omega)]
  refine ⟨_, _, rfl, ?_, ?_⟩
  · have h := (ecv_foldl_spec trainData trainValues model scoreFn
      (kfoldTestFolds trainData.length shuffle perm k) ([], st)).1
    have hflat := kfoldTestFolds_flatten trainData.length shuffle perm k
      (by omega) hperm
    have hlen : (kfoldIndices trainData.length shuffle perm).length
        = trainData.length :=
      ((kfoldIndices_perm trainData.length shuffle perm hperm).length_eq).trans
        (List.length_range trainData.length)
    calc ((kfoldTestFolds trainData.length shuffle perm k).foldl
            (ecvStep trainData trainValues model scoreFn) ([], st)).1.length
        = (((kfoldTestFolds trainData.length shuffle perm k).foldl
            (ecvStep trainData trainValues model scoreFn) ([], st)).1.map
              ScoredPred.index).length := (List.length_map _ _).symm
      _ = trainData.length := by
          rw [h, hflat]
          simpa using hlen
  · have h := (ecv_foldl_spec trainData trainValues model scoreFn
      (kfoldTestFolds trainData.length shuffle perm k) ([], st)).1
    rw [h, kfoldTestFolds_flatten trainData.length shuffle perm k (by omega) hperm]
    simpa using kfoldIndices_perm trainData.length shuffle perm hperm

theorem error_cross_validate_partition_witness :
    ((["a", "b", "c", "d", "e"] : List String).length = 5 ∧ 2 ≤ 5 ∧ 5 ≤ 5
        ∧ List.Perm (List.range 5) (List.range 5))
      ∧ ∃ res st',
        error_cross_validate ["a", "b", "c", "d", "e"] [1, 2, 3, 4, 5]
            { fit := fun _ _ _ => (), predict := fun _ _ => 0 } () 5 false
            (List.range 5) (fun _ ts => ts.getD 0 0)
          = .ok (res, st')
        ∧ res.length = 5
        ∧ List.Perm (res.map ScoredPred.index) (List.range 5) :=
  ⟨⟨rfl, by omega, by omega, List.Perm.refl _⟩,
    error_cross_validate_partition ["a", "b", "c", "d", "e"] [1, 2, 3, 4, 5]
      { fit := fun _ _ _ => (), predict := fun _ _ => 0 } () 5 false
      (List.range 5) (fun _ ts => ts.getD 0 0) 5 rfl (by omega) (by omega)
      (List.Perm.refl _)⟩

/-- C6: every record in a successful `error_cross_validate` result is the
tuple `(original index, predicted value, score)` with the score equal to
`score_fn` applied to the single-element sequences `[predicted value]`
and `[true value]` of that example alone, the predicted value being the
model's prediction for the row at that index. -/
theorem error_cross_validate_per_example {σ : Type u}
    (trainData : List String) (trainValues : List ℚ) (model : SkModel σ)
    (st : σ) (k : Nat) (shuffle : Bool) (perm : List Nat)
    (scoreFn : List ℚ → List ℚ → ℚ) (res : List ScoredPred) (st' : σ)
    (h : error_cross_validate trainData trainValues model st k shuffle perm
      scoreFn = .ok (res, st')) :
    ∀ r ∈ res,
      r.score = scoreFn [r.pred] [trainValues.getD r.index 0]
        ∧ ∃ s : σ, r.pred = model.predict s (trainData.getD r.index "") := by
  rw [error_cross_validate] at h
  by_cases h1 : k < 2
  · rw [if_pos h1] at h
    exact absurd h (by simp)
  · rw [if_neg h1] at h
    by_cases h2 : trainData.length < k
    · rw [if_pos h2] at h
      exact absurd h (by simp)
    · rw [if_neg h2] at h
      have hres : res = ((kfoldTestFolds trainData.length shuffle perm k).foldl
          (ecvStep trainData trainValues model scoreFn) ([], st)).1 := by
        injection h with h'
        rw [h']
      intro r hr
      rcases (ecv_foldl_spec trainData trainValues model scoreFn
          (kfoldTestFolds trainData.length shuffle perm k) ([], st)).2 r
          (hres ▸ hr) with hmem | hspec
      · exact absurd hmem (List.not_mem_nil r)
      · exact hspec

theorem error_cross_validate_per_example_witness :
    (error_cross_validate ["a", "b"] [1, 2]
        { fit := fun _ _ _ => (), predict := fun _ _ => 0 } () 2 false
        (List.range 2) (fun _ ts => ts.getD 0 0)
      = .ok ([⟨0, 0, 1⟩, ⟨1, 0, 2⟩], ()))
      ∧ ∀ r ∈ ([⟨0, 0, 1⟩, ⟨1, 0, 2⟩] : List ScoredPred),
          r.score = (fun _ ts => ts.getD 0 0 : List ℚ → List ℚ → ℚ)
              [r.pred] [([1, 2] : List ℚ).getD r.index 0]
            ∧ ∃ s : Unit, r.pred =
                ({ fit := fun _ _ _ => (), predict := fun _ _ => 0 } :
                  SkModel Unit).predict s ((["a", "b"] : List String).getD r.index "") :=
  ⟨rfl,
    error_cross_validate_per_example ["a", "b"] [1, 2]
      { fit := fun _ _ _ => (), predict := fun _ _ => 0 } () 2 false
      (List.range 2) (fun _ ts => ts.getD 0 0) [⟨0, 0, 1⟩, ⟨1, 0, 2⟩] () rfl⟩

/-- C7: a malformed `k` (`k < 2` or `k` greater than the dataset size) is
rejected: `error_cross_validate` returns an error before any fold is
built or any fit happens (the error branches precede the fold loop and
produce no model state). -/
theorem error_cross_validate_rejects {σ : Type u} (trainData : List String)
    (trainValues : List ℚ) (model : SkModel σ) (st : σ) (k : Nat)
    (shuffle : Bool) (perm : List Nat) (scoreFn : List ℚ → List ℚ → ℚ)
    (h : k < 2 ∨ trainData.length < k) :
    ∃ msg,
      error_cross_validate trainData trainValues model st k shuffle perm scoreFn
        = .error msg := by
  rw [error_cross_validate]
  by_cases h1 : k < 2
  · exact ⟨_, by rw [if_pos h1]⟩
  · rcases h with h | h
    · exact absurd h h1
    · exact ⟨_, by rw [if_neg h1, if_pos h]⟩

theorem error_cross_validate_rejects_witness :
    ((1 : Nat) < 2 ∨ (["a", "b", "c"] : List String).length < 1)
      ∧ ∃ msg,
        error_cross_validate ["a", "b", "c"] [1, 2, 3]
            { fit := fun _ _ _ => (), predict := fun _ _ => 0 } () 1 true
            (List.range 3) (fun _ ts => ts.getD 0 0)
          = .error msg :=
  ⟨Or.inl (by omega),
    error_cross_validate_rejects ["a", "b", "c"] [1, 2, 3]
      { fit := fun _ _ _ => (), predict := fun _ _ => 0 } () 1 true
      (List.range 3) (fun _ ts => ts.getD 0 0) (Or.inl (by omega))⟩

/-! ## sent_type_errors: stratification and KeyError (C4, C5) -/

theorem setAll_append (d : List (Nat × Nat)) (l1 l2 : List (Nat × Nat)) :
    setAll d (l1 ++ l2) = setAll (setAll d l1) l2 := by
  rw [setAll, setAll, setAll, List.foldl_append]

theorem setAll_map_pair (c : Nat) (ids : List Nat) (d : List (Nat × Nat)) :
    setAll d (ids.map (fun a => (a, c)))
      = ids.foldl (fun acc a => dictSet acc a c) d := by
  rw [setAll, List.foldl_map]

/-- The middle loop of the inversion (over one bucket's list of inner
lists) equals the flat assignment sequence. -/
theorem middle_loop_eq_setAll (c : Nat) :
    ∀ (idsList : List (List Nat)) (d : List (Nat × Nat)),
      idsList.foldl (fun acc2 ids =>
          ids.foldl (fun acc3 aId => dictSet acc3 aId c) acc2) d
        = setAll d (idsList.flatten.map (fun a => (a, c)))
  | [], d => by simp [setAll]
  | ids :: idsList, d => by
    rw [List.foldl_cons, middle_loop_eq_setAll c idsList, List.flatten_cons,
      List.map_append, setAll_append]
    simp only [setAll_map_pair]

/-- The triple-nested inversion loop of `sent_type_errors` equals the
flat assignment sequence over `pairsOf`. -/
theorem buildIds_eq_setAll :
    ∀ (compscountIds : List (Nat × List (List Nat))) (d : List (Nat × Nat)),
      compscountIds.foldl
          (fun acc p =>
            p.2.foldl (fun acc2 ids =>
              ids.foldl (fun acc3 aId => dictSet acc3 aId p.1) acc2) acc)
          d
        = setAll d (pairsOf compscountIds)
  | [], d => by simp [pairsOf, setAll]
  | p :: compscountIds, d => by
    have hr : pairsOf (p :: compscountIds)
        = p.2.flatten.map (fun a => (a, p.1)) ++ pairsOf compscountIds := by
      rw [pairsOf, List.map_cons, List.flatten_cons]
      rfl
    rw [List.foldl_cons, buildIds_eq_setAll compscountIds, hr, setAll_append,
      middle_loop_eq_setAll p.1 p.2 d]

theorem dictFind_setAll_not_mem (i : Nat) :
    ∀ (l : List (Nat × Nat)) (d : List (Nat × Nat)),
      i ∉ l.map Prod.fst → dictFind (setAll d l) i = dictFind d i
  | [], _, _ => rfl
  | q :: l, d, h => by
    have hq : ¬ i = q.1 ∧ i ∉ l.map Prod.fst := by
      rw [List.map_cons, List.mem_cons] at h
      exact ⟨fun he => h (Or.inl he), fun he => h (Or.inr he)⟩
    have hrec := dictFind_setAll_not_mem i l (dictSet d q.1 q.2) hq.2
    rw [show setAll d (q :: l) = setAll (dictSet d q.1 q.2) l from rfl, hrec,
      dictFind_set, if_neg hq.1]

theorem dictFind_setAll_mem (i c : Nat) :
    ∀ (l : List (Nat × Nat)) (d : List (Nat × Nat)), (i, c) ∈ l →
      ∃ c', dictFind (setAll d l) i = some c' ∧ (i, c') ∈ l
  | [], _, h => absurd h (List.not_mem_nil _)
  | q :: l, d, h => by
    by_cases hmem : i ∈ l.map Prod.fst
    · obtain ⟨q', hq', hfst⟩ := List.mem_map.mp hmem
      obtain ⟨i', c''⟩ := q'
      have hi : i' = i := hfst
      subst hi
      obtain ⟨c3, hc3, hmem3⟩ :=
        dictFind_setAll_mem i' c'' l (dictSet d q.1 q.2) hq'
      exact ⟨c3, hc3, List.mem_cons_of_mem _ hmem3⟩
    · have hq : q = (i, c) := by
        rcases List.mem_cons.mp h with h' | h'
        · exact h'.symm
        · exact absurd (List.mem_map.mpr ⟨(i, c), h', rfl⟩) hmem
      subst hq
      rw [show setAll d ((i, c) :: l) = setAll (dictSet d i c) l from rfl,
        dictFind_setAll_not_mem i l _ hmem, dictFind_set, if_pos rfl]
      exact ⟨c, rfl, List.mem_cons_self _ _⟩

theorem mem_pairsOf {compscountIds : List (Nat × List (List Nat))}
    {i c : Nat} : (i, c) ∈ pairsOf compscountIds ↔ appearsUnder compscountIds i c := by
  rw [pairsOf, appearsUnder]
  constructor
  · intro h
    rcases List.mem_flatten.mp h with ⟨l', hl', hmem⟩
    rcases List.mem_map.mp hl' with ⟨p, hp, rfl⟩
    rcases List.mem_map.mp hmem with ⟨a, ha, heq⟩
    cases heq
    rcases List.mem_flatten.mp ha with ⟨l, hl, hal⟩
    exact ⟨p, hp, rfl, l, hl, hal⟩
  · rintro ⟨p, hp, rfl, l, hl, hil⟩
    refine List.mem_flatten.mpr
      ⟨p.2.flatten.map (fun a => (a, p.1)), List.mem_map.mpr ⟨p, hp, rfl⟩, ?_⟩
    exact List.mem_map.mpr ⟨i, List.mem_flatten.mpr ⟨l, hl, hil⟩, rfl⟩

/-- A successful inverted lookup returns a count the index appears
under, and every appearing index has a successful lookup. -/
theorem dictFind_buildIds_appears {compscountIds : List (Nat × List (List Nat))}
    {i c : Nat} (h : appearsUnder compscountIds i c) :
    ∃ c', dictFind (buildIdsCompscount compscountIds) i = some c'
      ∧ appearsUnder compscountIds i c' := by
  rw [show buildIdsCompscount compscountIds = setAll [] (pairsOf compscountIds)
    from buildIds_eq_setAll compscountIds []]
  obtain ⟨c', hc', hmem⟩ :=
    dictFind_setAll_mem i c (pairsOf compscountIds) [] (mem_pairsOf.mpr h)
  exact ⟨c', hc', mem_pairsOf.mp hmem⟩

theorem dictFind_buildIds_none {compscountIds : List (Nat × List (List Nat))}
    {i : Nat} (h : ∀ c, ¬ appearsUnder compscountIds i c) :
    dictFind (buildIdsCompscount compscountIds) i = none := by
  rw [show buildIdsCompscount compscountIds = setAll [] (pairsOf compscountIds)
    from buildIds_eq_setAll compscountIds []]
  rw [dictFind_setAll_not_mem i (pairsOf compscountIds) []]
  · rfl
  · intro hmem
    rcases List.mem_map.mp hmem with ⟨⟨i', c⟩, hmem', he⟩
    have hi : i' = i := he
    subst hi
    exact h c (mem_pairsOf.mp hmem')

/-- The stratification loop: when every remaining record's index has a
successful inverted lookup whose count it appears under, the loop
succeeds, grows the total record count by the number of records
consumed, and keeps every stored record in a stratum its index appears
under. -/
theorem sentTypeLoop_spec (compscountIds : List (Nat × List (List Nat))) :
    ∀ (es : List ErrorRecord) (acc : List (Nat × List ErrorRecord)),
      (∀ e ∈ es, ∃ c, dictFind (buildIdsCompscount compscountIds) e.index = some c
          ∧ appearsUnder compscountIds e.index c) →
      (∀ p ∈ acc, ∀ e ∈ p.2, appearsUnder compscountIds e.index p.1) →
      ∃ strata, sentTypeLoop (buildIdsCompscount compscountIds) es acc = .ok strata
        ∧ (dictVals strata).flatten.length
            = es.length + (dictVals acc).flatten.length
        ∧ ∀ p ∈ strata, ∀ e ∈ p.2, appearsUnder compscountIds e.index p.1
  | [], acc, _, hinv => ⟨acc, rfl, by simp, hinv⟩
  | e :: es, acc, hes, hinv => by
    obtain ⟨c, hc, happ⟩ := hes e (List.mem_cons_self _ _)
    have hinv' : ∀ p ∈ dictSet acc c (dictGet acc c [] ++ [e]),
        ∀ e' ∈ p.2, appearsUnder compscountIds e'.index p.1 := by
      intro p hp e' he'
      rcases mem_dictSet hp with hp' | hp'
      · exact hinv p hp' e' he'
      · subst hp'
        rcases List.mem_append.mp he' with h' | h'
        · rcases dictGet_default_or_mem acc c
            ([] : List ErrorRecord) with hg | hg
          · rw [hg] at h'
            exact absurd h' (List.not_mem_nil _)
          · exact hinv (c, dictGet acc c []) hg e' h'
        · have he : e' = e := by simpa using h'
          subst he
          exact happ
    obtain ⟨strata, hok, hlen, hinvS⟩ := sentTypeLoop_spec compscountIds es
      (dictSet acc c (dictGet acc c [] ++ [e]))
      (fun e' he' => hes e' (List.mem_cons_of_mem _ he')) hinv'
    refine ⟨strata, ?_, ?_, hinvS⟩
    · rw [sentTypeLoop, hc]
      exact hok
    · have hp := (dictVals_set_append_perm acc c e).length_eq
      simp only [List.length_cons] at hp
      rw [hlen, hp]
      simp only [List.length_cons]
      omega

/-- C4: when every record's original index appears in `count_groups`,
`sent_type_errors` succeeds, the total number of records across all
strata equals the number of records passed in, and every record is
stored in the stratum of an entity-count under which its original index
appears in `count_groups`. -/
theorem sent_type_errors_strata (topErrors : List ErrorRecord)
    (compscountIds : List (Nat × List (List Nat)))
    (hmem : ∀ e ∈ topErrors, ∃ c, appearsUnder compscountIds e.index c) :
    ∃ strata, sent_type_errors topErrors compscountIds = .ok strata
      ∧ (strata.map (fun p => p.2.length)).sum = topErrors.length
      ∧ ∀ p ∈ strata, ∀ e ∈ p.2, appearsUnder compscountIds e.index p.1 := by
  have hes : ∀ e ∈ topErrors,
      ∃ c, dictFind (buildIdsCompscount compscountIds) e.index = some c
        ∧ appearsUnder compscountIds e.index c := by
    intro e he
    obtain ⟨c, hc⟩ := hmem e he
    exact dictFind_buildIds_appears hc
  obtain ⟨strata, hok, hlen, hinv⟩ :=
    sentTypeLoop_spec compscountIds topErrors [] hes (by simp)
  refine ⟨strata, hok, ?_, hinv⟩
  have hsum : (dictVals strata).flatten.length
      = (strata.map (fun p => p.2.length)).sum := by
    rw [List.length_flatten, dictVals, List.map_map]
    rfl
  rw [← hsum, hlen]
  simp [dictVals]

theorem sent_type_errors_strata_witness :
    (∀ e ∈ ([⟨"a", "y", 2, 0, 1⟩, ⟨"b", "z", 3, 0, 2⟩] : List ErrorRecord),
        ∃ c, appearsUnder [(2, [[0, 1]]), (1, [[2]])] e.index c)
      ∧ ∃ strata,
        sent_type_errors [⟨"a", "y", 2, 0, 1⟩, ⟨"b", "z", 3, 0, 2⟩]
            [(2, [[0, 1]]), (1, [[2]])]
          = .ok strata
        ∧ (strata.map (fun p => p.2.length)).sum
            = ([⟨"a", "y", 2, 0, 1⟩, ⟨"b", "z", 3, 0, 2⟩] :
                List ErrorRecord).length
        ∧ ∀ p ∈ strata, ∀ e ∈ p.2,
            appearsUnder [(2, [[0, 1]]), (1, [[2]])] e.index p.1 := by
  have hmem : ∀ e ∈ ([⟨"a", "y", 2, 0, 1⟩, ⟨"b", "z", 3, 0, 2⟩] :
      List ErrorRecord), ∃ c, appearsUnder [(2, [[0, 1]]), (1, [[2]])] e.index c := by
    intro e he
    rcases List.mem_cons.mp he with rfl | he
    · exact ⟨2, by decide⟩
    · rcases List.mem_cons.mp he with rfl | he
      · exact ⟨1, by decide⟩
      · exact absurd he (List.not_mem_nil _)
  exact ⟨hmem, sent_type_errors_strata
    [⟨"a", "y", 2, 0, 1⟩, ⟨"b", "z", 3, 0, 2⟩] [(2, [[0, 1]]), (1, [[2]])] hmem⟩

theorem sentTypeLoop_error (idsCompscount : List (Nat × Nat)) :
    ∀ (es : List ErrorRecord) (acc : List (Nat × List ErrorRecord)),
      (∃ e ∈ es, dictFind idsCompscount e.index = none) →
      ∃ msg, sentTypeLoop idsCompscount es acc = .error msg
  | [], _, h => by
    obtain ⟨e, he, _⟩ := h
    exact absurd he (List.not_mem_nil _)
  | e :: es, acc, h => by
    cases hfind : dictFind idsCompscount e.index with
    | none => exact ⟨_, by rw [sentTypeLoop, hfind]⟩
    | some c =>
      obtain ⟨e', he', hnone⟩ := h
      rcases List.mem_cons.mp he' with he'' | he''
      · subst he''
        rw [hfind] at hnone
        exact absurd hnone (by simp)
      · obtain ⟨msg, hmsg⟩ := sentTypeLoop_error idsCompscount es
          (dictSet acc c (dictGet acc c [] ++ [e])) ⟨e', he'', hnone⟩
        refine ⟨msg, ?_⟩
        rw [sentTypeLoop, hfind]
        exact hmsg

/-- C5: when some record's original index is absent from the inverted
lookup built from `count_groups`, `sent_type_errors` signals an error (a
`KeyError`); it does not return a result that drops the record. -/
theorem sent_type_errors_keyerror (topErrors : List ErrorRecord)
    (compscountIds : List (Nat × List (List Nat)))
    (h : ∃ e ∈ topErrors, ∀ c, ¬ appearsUnder compscountIds e.index c) :
    ∃ msg, sent_type_errors topErrors compscountIds = .error msg := by
  obtain ⟨e, he, hnone⟩ := h
  exact sentTypeLoop_error (buildIdsCompscount compscountIds) topErrors []
    ⟨e, he, dictFind_buildIds_none hnone⟩

theorem sent_type_errors_keyerror_witness :
    (∃ e ∈ ([⟨"q", "w", 1, 0, 5⟩] : List ErrorRecord),
        ∀ c, ¬ appearsUnder [(2, [[0, 1]]), (1, [[2]])] e.index c)
      ∧ ∃ msg,
        sent_type_errors [⟨"q", "w", 1, 0, 5⟩] [(2, [[0, 1]]), (1, [[2]])]
          = .error msg := by
  have habs : ∀ c, ¬ appearsUnder [(2, [[0, 1]]), (1, [[2]])] (5 : Nat) c := by
    have h5 : (5 : Nat) ∉ (pairsOf [(2, [[0, 1]]), (1, [[2]])]).map Prod.fst := by
      decide
    intro c hc
    exact h5 (List.mem_map.mpr ⟨(5, c), mem_pairsOf.mpr hc, rfl⟩)
  exact ⟨⟨⟨"q", "w", 1, 0, 5⟩, List.mem_cons_self _ _, habs⟩,
    sent_type_errors_keyerror [⟨"q", "w", 1, 0, 5⟩] [(2, [[0, 1]]), (1, [[2]])]
      ⟨⟨"q", "w", 1, 0, 5⟩, List.mem_cons_self _ _, habs⟩⟩

/-! ## error_analysis: distribution map and truthiness (C8, C10) -/

/-- A successful `errorAnalysisCore` returns the distribution derived
from the strata's list lengths. -/
theorem errorAnalysisCore_dist {σ : Type u} (cg : List (Nat × List (List Nat)))
    (td : List String) (tv : List ℚ) (tc : List String) (clf : SkModel σ)
    (st : σ) (ne nf : Nat) (sh : Bool) (perm : List Nat)
    (f : List ℚ → List ℚ → ℚ) (strata : List (Nat × List ErrorRecord))
    (dist : List (Nat × Nat))
    (h : errorAnalysisCore cg td tv tc clf st ne nf sh perm f = .ok (strata, dist)) :
    dist = strata.map (fun p => (p.1, p.2.length)) := by
  rw [errorAnalysisCore] at h
  cases hecv : error_cross_validate td tv clf st nf sh perm f with
  | error e =>
    rw [hecv] at h
    simp at h
  | ok pr =>
    obtain ⟨er, st'⟩ := pr
    rw [hecv] at h
    simp only [] at h
    cases hst : sent_type_errors (top_n_errors er td tv tc ne) cg with
    | error e2 =>
      rw [hst] at h
      simp at h
    | ok ed =>
      rw [hst] at h
      simp only [Except.ok.injEq, Prod.mk.injEq] at h
      rw [← h.2, ← h.1]

theorem dictFind_map_length (strata : List (Nat × List ErrorRecord)) (c : Nat) :
    dictFind (strata.map (fun p => (p.1, p.2.length))) c
      = (dictFind strata c).map List.length := by
  induction strata with
  | nil => rfl
  | cons p d ih =>
    by_cases h : p.1 = c
    · simp [dictFind, h]
    · simp [dictFind, h, ih]

/-- C8: whenever `error_analysis` succeeds, the returned distribution map
has the same key sequence as the strata map, and looking a stratum up in
the distribution yields exactly the length of that stratum's record
list. -/
theorem error_analysis_distribution {σ : Type u} (trainData : List String)
    (trainValues : List ℚ) (trainComps : List String) (clf : SkModel σ)
    (st : σ) (trainText : GroupText) (numErrors nFolds : Nat)
    (shuffle : Bool) (perm : List Nat) (scoreFn : List ℚ → List ℚ → ℚ)
    (strata : List (Nat × List ErrorRecord)) (dist : List (Nat × Nat))
    (h : error_analysis trainData trainValues trainComps clf st trainText
      numErrors nFolds shuffle perm scoreFn = .ok (strata, dist)) :
    dist.map Prod.fst = strata.map Prod.fst
      ∧ ∀ c : Nat, dictFind dist c = (dictFind strata c).map List.length := by
  have hdist : dist = strata.map (fun p => (p.1, p.2.length)) :=
    errorAnalysisCore_dist _ trainData trainValues trainComps clf st numErrors
      nFolds shuffle perm scoreFn strata dist h
  subst hdist
  constructor
  · rw [List.map_map]
    rfl
  · exact dictFind_map_length strata

theorem error_analysis_distribution_witness :
    (error_analysis ["a", "a", "b"] [1, 2, 3] ["x", "y", "z"]
        { fit := fun _ _ _ => (), predict := fun _ _ => 0 } () (.bool false) 50
        3 false (List.range 3) (fun _ ts => ts.getD 0 0)
      = .ok ([(1, [⟨"b", "z", 3, 0, 2⟩]),
              (2, [⟨"a", "y", 2, 0, 1⟩, ⟨"a", "x", 1, 0, 0⟩])],
             [(1, 1), (2, 2)]))
      ∧ ([(1, 1), (2, 2)] : List (Nat × Nat)).map Prod.fst
          = ([(1, [⟨"b", "z", 3, 0, 2⟩]),
              (2, [⟨"a", "y", 2, 0, 1⟩, ⟨"a", "x", 1, 0, 0⟩])] :
              List (Nat × List ErrorRecord)).map Prod.fst
        ∧ ∀ c : Nat, dictFind ([(1, 1), (2, 2)] : List (Nat × Nat)) c
            = (dictFind ([(1, [⟨"b", "z", 3, 0, 2⟩]),
                (2, [⟨"a", "y", 2, 0, 1⟩, ⟨"a", "x", 1, 0, 0⟩])] :
                List (Nat × List ErrorRecord)) c).map List.length :=
  ⟨rfl,
    error_analysis_distribution ["a", "a", "b"] [1, 2, 3] ["x", "y", "z"]
      { fit := fun _ _ _ => (), predict := fun _ _ => 0 } () (.bool false) 50 3
      false (List.range 3) (fun _ ts => ts.getD 0 0)
      [(1, [⟨"b", "z", 3, 0, 2⟩]), (2, [⟨"a", "y", 2, 0, 1⟩, ⟨"a", "x", 1, 0, 0⟩])]
      [(1, 1), (2, 2)] rfl⟩

/-- C10: the grouping-text fallback of `error_analysis` is decided by
Python truthiness, not by whether the argument was supplied: for every
falsy `train_text` (the default `False`, an empty list, an empty
string), the pipeline runs with `comps2sent(train_data, train_comps)`. -/
theorem error_analysis_truthiness {σ : Type u} (trainData : List String)
    (trainValues : List ℚ) (trainComps : List String) (clf : SkModel σ)
    (st : σ) (trainText : GroupText) (numErrors nFolds : Nat)
    (shuffle : Bool) (perm : List Nat) (scoreFn : List ℚ → List ℚ → ℚ)
    (h : trainText.truthy = false) :
    error_analysis trainData trainValues trainComps clf st trainText numErrors
        nFolds shuffle perm scoreFn
      = errorAnalysisCore (comps2sent trainData trainComps) trainData
          trainValues trainComps clf st numErrors nFolds shuffle perm scoreFn := by
  rw [error_analysis, h]
  simp

theorem error_analysis_truthiness_witness :
    ((GroupText.bool false).truthy = false ∧ (GroupText.lst []).truthy = false
        ∧ (GroupText.str "").truthy = false)
      ∧ error_analysis ["a"] [1] ["x"]
          { fit := fun _ _ _ => (), predict := fun _ _ => 0 } () (.str "") 10 2
          false (List.range 1) (fun _ ts => ts.getD 0 0)
        = errorAnalysisCore (comps2sent ["a"] ["x"]) ["a"] [1] ["x"]
            { fit := fun _ _ _ => (), predict := fun _ _ => 0 } () 10 2 false
            (List.range 1) (fun _ ts => ts.getD 0 0) :=
  ⟨⟨rfl, rfl, rfl⟩,
    error_analysis_truthiness ["a"] [1] ["x"]
      { fit := fun _ _ _ => (), predict := fun _ _ => 0 } () (.str "") 10 2
      false (List.range 1) (fun _ ts => ts.getD 0 0) rfl⟩

end Semeval
